import Mathlib

/-!
Verification development for the squishmallowdex crawl-cache-parse-resume
pipeline (squishmallowdex.py).  The definitions below are a shallow embedding
of the functions the development reasons about: the polite fetcher and its
URL-keyed page cache, the master-list URL extraction, the page classifier,
the bounded section-text extraction, the progress-ledger files, and the
orchestrator loop of main.  Machine-level details that the properties do not
depend on (HTML parsing itself, real file descriptors, wall-clock delays)
are abstracted as explicit inputs: a page is represented by its parse result,
the file system by association lists and line lists.
-/

namespace Squishmallowdex

/-! ### String helpers

Python string conventions used by the script: str.strip removes surrounding
whitespace (modelled over the ASCII whitespace characters), and truthiness of
a string is non-emptiness. -/

/-- Whitespace characters removed by str.strip (ASCII part). -/
def isSpaceChar (c : Char) : Bool :=
  c == ' ' || c == '\t' || c == '\n' || c == '\r' || c == '\x0b' || c == '\x0c'

/-- str.strip on the character list: drop whitespace from both ends. -/
def stripList (l : List Char) : List Char :=
  ((l.dropWhile isSpaceChar).reverse.dropWhile isSpaceChar).reverse

/-- str.strip on strings. -/
def stripStr (s : String) : String :=
  String.mk (stripList s.data)

/-! ### The denylist regex NON_CHARACTER_TITLES

The source compiles the regex (line 720)
  \b(Master List|Main Page|All Pages|Squishville|Roblox)\b
with the IGNORECASE flag and applies re.search to the page name.  The
embedding lowercases both sides and scans every position of the text for an
occurrence of one of the five phrases delimited by word boundaries.  Word
characters are modelled as ASCII alphanumerics and underscore. -/

/-- Word character for the regex word-boundary semantics. -/
def isWordChar (c : Char) : Bool :=
  c.isAlphanum || c == '_'

/-- Does the phrase occur at the head of text, with a word boundary on each
side?  prev is the character immediately before this position (none at the
start of the string). -/
def wordMatchAt (phrase : List Char) (prev : Option Char) (text : List Char) : Bool :=
  phrase.isPrefixOf text
    && (match prev with
        | none => true
        | some c => !(isWordChar c))
    && (match (text.drop phrase.length).head? with
        | none => true
        | some c => !(isWordChar c))

/-- Scan every position of the text for a word-bounded occurrence of the
phrase (re.search). -/
def wordSearchFrom (phrase : List Char) : Option Char → List Char → Bool
  | _, [] => false
  | prev, c :: rest => wordMatchAt phrase prev (c :: rest) || wordSearchFrom phrase (some c) rest

/-- Case-insensitive word-bounded substring search. -/
def containsWordCI (s phrase : String) : Bool :=
  wordSearchFrom (phrase.data.map Char.toLower) none (s.data.map Char.toLower)

/-- The five alternatives of the NON_CHARACTER_TITLES regex (line 720). -/
def NON_CHARACTER_TITLES : List String :=
  ["Master List", "Main Page", "All Pages", "Squishville", "Roblox"]

/-- NON_CHARACTER_TITLES.search(name): some alternative occurs in the name,
case-insensitively and word-bounded. -/
def nonCharacterTitleMatch (name : String) : Bool :=
  NON_CHARACTER_TITLES.any (fun p => containsWordCI name p)

/-! ### The classifier is_character_page (lines 924-943) -/

/-- The allow-listed infobox keys: required_keys in is_character_page
(lines 932-939), identical to the wanted list in parse_squish_page. -/
def required_keys : List String :=
  ["Type", "Color", "Squad", "Size(s)", "Collector Number", "Year"]

/-- k in info for the infobox map, modelled as an association list with the
keys unique (Python dict). -/
def hasKey (info : List (String × String)) (k : String) : Bool :=
  info.any (fun kv => kv.1 == k)

/-- is_character_page (lines 924-943).  The name argument is str | None; the
Python test `if not name` rejects both None and the empty string. -/
def is_character_page (name : Option String) (info : List (String × String)) : Bool :=
  match name with
  | none => false
  | some n =>
    if n == "" then false
    else if nonCharacterTitleMatch n then false
    else if info.isEmpty then false
    else if !(required_keys.any (fun k => hasKey info k)) then false
    else true

/-- Rejection condition exactly as the specification claim words it: the name
is absent, or the name matches the denylist, or the attribute map is empty,
or none of the allow-listed keys is present.  This definition follows the
claim text, not the source, and is compared against is_character_page. -/
def isEntryRejectSpec (name : Option String) (info : List (String × String)) : Bool :=
  name.isNone
    || (match name with
        | none => false
        | some n => nonCharacterTitleMatch n)
    || info.isEmpty
    || !(required_keys.any (fun k => hasKey info k))

/-- The amended rejection condition: as isEntryRejectSpec but with the first
disjunct widened from absent to absent-or-empty, matching the Python
truthiness test `if not name`. -/
def isEntryRejectAmended (name : Option String) (info : List (String × String)) : Bool :=
  (match name with
   | none => true
   | some n => n == "")
    || (match name with
        | none => false
        | some n => nonCharacterTitleMatch n)
    || info.isEmpty
    || !(required_keys.any (fun k => hasKey info k))

/-! ### The polite fetcher (lines 735-777)

cache_path (line 730) keys the cache file by a digest of the URL alone, so
one URL maps to exactly one cache file; the cache directory is therefore
modelled as an association list from URL to file contents, where a present
entry is a file that passes the os.path.exists check.  The network is an
explicit argument: net url = some content is a 2xx response with that body,
net url = none is a non-2xx status or transport failure, on which
raise_for_status propagates an exception before anything is cached. -/

/-- State of the cache directory plus the count of network requests issued
by session.get. -/
structure FetchState where
  cache : List (String × String)
  netCalls : Nat
deriving DecidableEq

/-- fetch (lines 735-777).  Returns the delivered content (none when the
request raised) together with the updated state.  On a cache hit with
refresh false it returns the cached file without a network call; otherwise
it performs one network request, and on success writes the response to the
cache file before returning.  The post-fetch rate-limit sleep does not
affect the state. -/
def fetch (net : String → Option String) (refresh : Bool) (url : String)
    (s : FetchState) : Option String × FetchState :=
  if (List.lookup url s.cache).isSome && !refresh then
    (List.lookup url s.cache, s)
  else
    match net url with
    | none => (none, { s with netCalls := s.netCalls + 1 })
    | some content =>
        (some content, { cache := (url, content) :: s.cache, netCalls := s.netCalls + 1 })

/-- The filesystem states reachable by interrupting the cache write of fetch
(lines 769-771).  open(path, "wb") creates or truncates the file at its
final path before any byte is written, then f.write(content) appends the
bytes; an interruption after k bytes leaves the k-character prefix visible
at the final cache path.  The element for k = content.length is the
completed write. -/
def interruptedCacheWrites (s : FetchState) (url content : String) : List FetchState :=
  (List.range (content.length + 1)).map
    (fun k => { s with cache := (url, String.mk (content.data.take k)) :: s.cache })

/-! ### The progress ledger files (lines 1785-1796)

A ledger file is modelled as the list of its lines in order; append_progress
writes one URL per line. -/

/-- read_progress (lines 1785-1790): the set of stripped non-empty lines. -/
def read_progress (lines : List String) : Finset String :=
  ((lines.map stripStr).filter (fun l => l != "")).toFinset

/-- append_progress (lines 1793-1796): append one URL as a new line. -/
def append_progress (lines : List String) (url : String) : List String :=
  lines ++ [url]

/-! ### The orchestrator loop of main (lines 2157-2233)

The loop walks the candidate URLs in document order.  The per-URL work
(fetch plus parse_squish_page) is abstracted by an environment mapping each
URL to its outcome: a parsed row and infobox, or an exception (network
error, timeout, parse failure).  The state carries the in-memory ledger
sets, the on-disk ledger files, the accumulated catalog rows, the
new_catches and errors counters of the AdventureLog, and the list of URLs
for which fetch was invoked this run.  Batch checkpointing (save_collection)
reads the rows but changes none of these components, so it is not part of
the state transition; interrupting the run after any prefix of the URL list
is covered because the loop is defined over an arbitrary list. -/

/-- One catalog row, restricted to the fields the properties mention:
row["Name"] (str | None) and row["URL"]. -/
structure Row where
  name : Option String
  url : String
deriving DecidableEq

/-- Outcome of the per-URL work fetch + parse_squish_page for one URL. -/
inductive PageResult where
  | ok (row : Row) (info : List (String × String))
  | err
deriving DecidableEq

/-- State owned by the orchestrator during a run. -/
structure RunState where
  processed : Finset String
  skipped : Finset String
  procLines : List String
  skipLines : List String
  rows : List Row
  newCatches : Nat
  errors : Nat
  fetched : List String
deriving DecidableEq

/-- The empty starting state of a fresh run. -/
def emptyRun : RunState :=
  { processed := ∅, skipped := ∅, procLines := [], skipLines := [],
    rows := [], newCatches := 0, errors := 0, fetched := [] }

/-- The break condition of line 2161: limit is not None and
log.new_catches >= limit. -/
def limitReached (limit : Option Nat) (catches : Nat) : Bool :=
  match limit with
  | none => false
  | some n => decide (n ≤ catches)

/-- The body of one non-skipped iteration (lines 2177-2200): fetch the page,
then on an exception record the error and change nothing else (lines
2231-2233); on success classify, and either mark the URL rejected (lines
2184-2190) or append the row, mark the URL processed and count the catch
(lines 2192-2200). -/
def stepUrl (env : String → PageResult) (s : RunState) (u : String) : RunState :=
  match env u with
  | PageResult.err =>
      { s with errors := s.errors + 1, fetched := s.fetched ++ [u] }
  | PageResult.ok row info =>
      if is_character_page row.name info then
        { s with fetched := s.fetched ++ [u],
                 rows := s.rows ++ [row],
                 processed := insert u s.processed,
                 procLines := append_progress s.procLines u,
                 newCatches := s.newCatches + 1 }
      else
        { s with fetched := s.fetched ++ [u],
                 skipped := insert u s.skipped,
                 skipLines := append_progress s.skipLines u }

/-- The orchestrator loop (lines 2157-2233).  A URL already in either ledger
set is skipped before anything else (line 2159); then the limit break of
line 2161 is checked; otherwise the per-URL work runs.  The refresh flag is
forwarded to fetch, where it bypasses cache reads only; it takes no part in
the control flow of the loop, so it is threaded here unused. -/
def runLoop (refresh : Bool) (env : String → PageResult) (limit : Option Nat) :
    RunState → List String → RunState
  | s, [] => s
  | s, u :: rest =>
      if u ∈ s.processed ∨ u ∈ s.skipped then runLoop refresh env limit s rest
      else if limitReached limit s.newCatches then s
      else runLoop refresh env limit (stepUrl env s u) rest

/-! ### The ledger mark operations as the loop performs them

markProcessed is the combination the orchestrator uses for a processed URL:
the guard of line 2159 (skip anything already in either set), then
processed_urls.add(u) with append_progress(progress_file, u) (lines
2194-2196); markRejected is the same for skipped_urls and the skipped file
(lines 2187-2189). -/

/-- Mark a URL processed, a no-op when the URL is already known. -/
def markProcessed (s : RunState) (u : String) : RunState :=
  if u ∈ s.processed ∨ u ∈ s.skipped then s
  else { s with processed := insert u s.processed,
                procLines := append_progress s.procLines u }

/-- Mark a URL rejected, a no-op when the URL is already known. -/
def markRejected (s : RunState) (u : String) : RunState :=
  if u ∈ s.processed ∨ u ∈ s.skipped then s
  else { s with skipped := insert u s.skipped,
                skipLines := append_progress s.skipLines u }

/-- One ledger mark operation. -/
inductive MarkOp where
  | processed (u : String)
  | rejected (u : String)
deriving DecidableEq

/-- Apply one mark operation. -/
def applyMarkOp (s : RunState) : MarkOp → RunState
  | MarkOp.processed u => markProcessed s u
  | MarkOp.rejected u => markRejected s u

/-- Apply a sequence of mark operations in order. -/
def applyMarkOps (s : RunState) (ops : List MarkOp) : RunState :=
  ops.foldl applyMarkOp s

/-! ### Section text extraction (section_text_after_heading, lines 843-871)

The walk over heading.find_next_siblings() sees, for each sibling, whether
it is a section heading (h2/h3/h4 containing a span.mw-headline, which ends
the walk), a block-level element (p, blockquote, ul, ol, div, whose
stripped-strings text joined by single spaces is collected when non-empty),
or anything else.  A sibling is modelled by that classification.  The
headline lookup itself (lines 847-853) returns None before any text is
collected when the heading is absent; the definitions below model the walk
from the located heading, taking the sibling list as input. -/

/-- One sibling of the section heading, as the walk of lines 859-868
distinguishes them. -/
inductive Sib where
  | heading
  | block (txt : String)
  | other
deriving DecidableEq

/-- The collection loop of lines 859-868: stop at the next section heading;
append each non-empty block text; after every sibling, stop as soon as the
accumulated character count exceeds max_chars. -/
def collectParts (maxChars : Nat) : List String → List Sib → List String
  | parts, [] => parts
  | parts, Sib.heading :: _ => parts
  | parts, Sib.block txt :: rest =>
      let parts2 := if txt == "" then parts else parts ++ [txt]
      if maxChars < (parts2.map String.length).sum then parts2
      else collectParts maxChars parts2 rest
  | parts, Sib.other :: rest =>
      if maxChars < (parts.map String.length).sum then parts
      else collectParts maxChars parts rest

/-- Python " ".join. -/
def joinSpace : List String → String
  | [] => ""
  | [p] => p
  | p :: rest => p ++ " " ++ joinSpace rest

/-- section_text_after_heading (lines 843-871) from the located heading:
join the collected parts with spaces, strip, and return None for the empty
result (text or None).  The default character budget is max_chars = 2500. -/
def section_text_after_heading (sibs : List Sib) (maxChars : Nat) : Option String :=
  let text := stripStr (joinSpace (collectParts maxChars [] sibs))
  if text == "" then none else some text

/-! ### Master-list URL extraction (extract_master_list_urls, lines 780-806) -/

/-- BASE (line 700). -/
def BASE : String := "https://squishmallowsquad.fandom.com"

/-- SKIP_NAMESPACES (lines 707-715). -/
def SKIP_NAMESPACES : List String :=
  ["File:", "Category:", "Special:", "Help:", "User:", "Template:", "Talk:"]

/-- str.startswith, character-based as in Python. -/
def strStartsWith (s p : String) : Bool :=
  p.data.isPrefixOf s.data

/-- String slicing s[n:], character-based as in Python. -/
def strDrop (s : String) (n : Nat) : String :=
  String.mk (s.data.drop n)

/-- href.split("#")[0]: the prefix before the first hash. -/
def splitHash (href : String) : String :=
  String.mk (href.data.takeWhile (fun c => c ≠ '#'))

/-- The six literal alternatives of the NOISY_PAGES regex (line 717). -/
def NOISY_TITLES : List String :=
  ["Master_List", "Main_Page", "All_Pages", "Animals", "Foods", "Mythical_Creatures"]

/-- Does the pattern of NOISY_PAGES match at exactly this suffix of the URL:
the suffix is /wiki/ followed by a literal alternative at the very end
(the anchor), or /wiki/By_ followed by anything (By_.*).  The model treats
the dot of the regex as any character; URLs contain no newlines. -/
def noisyAt (l : List Char) : Bool :=
  NOISY_TITLES.any (fun t => l == ("/wiki/" ++ t).data)
    || ("/wiki/By_".data.isPrefixOf l)

/-- re.search: try the pattern at every suffix of the text. -/
def searchSuffixes (p : List Char → Bool) : List Char → Bool
  | [] => p []
  | c :: rest => p (c :: rest) || searchSuffixes p rest

/-- NOISY_PAGES.search(url) (lines 717-719, used at line 805). -/
def noisyPages (url : String) : Bool :=
  searchSuffixes noisyAt url.data

/-- The per-anchor processing of lines 789-802: the CSS selector keeps
anchors whose href starts with /wiki/; the fragment is dropped; the prefix
is re-checked; the title part (the href with the leading /wiki/ removed,
href.replace with count 1, which for such an href is drop 6) must not start
with a skipped namespace; the kept URL is urljoin(BASE, href), which for an
absolute-path href against the origin-only BASE is their concatenation. -/
def candidateOf (href0 : String) : Option String :=
  if strStartsWith href0 "/wiki/" then
    let href := splitHash href0
    if strStartsWith href "/wiki/" then
      if SKIP_NAMESPACES.any (fun ns => strStartsWith (strDrop href 6) ns) then none
      else some (BASE ++ href)
    else none
  else none

/-- All candidate URLs of the document, in anchor order, duplicates kept. -/
def candidateUrls (hrefs : List String) : List String :=
  hrefs.filterMap candidateOf

/-- The seen-set deduplication of lines 785-802: keep the first occurrence
of each URL, in order. -/
def dedupFirstAux (seen : List String) : List String → List String
  | [] => []
  | a :: l =>
      if a ∈ seen then dedupFirstAux seen l
      else a :: dedupFirstAux (a :: seen) l

/-- extract_master_list_urls (lines 780-806): process the anchors of the
parsed content in document order, deduplicate keeping first occurrences,
then drop URLs matching NOISY_PAGES (line 805). -/
def extract_master_list_urls (hrefs : List String) : List String :=
  (dedupFirstAux [] (candidateUrls hrefs)).filter (fun u => !(noisyPages u))

/-! ### Concrete data used to instantiate the properties -/

/-- A leaf page URL of the crawl. -/
def fifiUrl : String := "https://squishmallowsquad.fandom.com/wiki/Fifi"

/-- A network that answers every request with the same body. -/
def netPage : String → Option String := fun _ => some "page"

/-- A per-URL environment in which every page fails with a transport error. -/
def envAllErr : String → PageResult := fun _ => PageResult.err

/-- A per-URL environment: URL A parses with an empty infobox, so the
classifier rejects it; every other URL parses as a character page. -/
def envListThenChar : String → PageResult :=
  fun u =>
    if u == "A" then PageResult.ok { name := some "Listy", url := u } []
    else PageResult.ok { name := some "Fifi", url := u } [("Type", "Fox")]

/-- A block of 2501 characters, one more than the default budget of
section_text_after_heading. -/
def bigBlock : String := String.mk (List.replicate 2501 'a')

/-! ## Theorems -/

/-! ### C5: the classifier rejection condition -/

/-- C5 (counterexample): the claim says is_character_page returns false
exactly when the spec-worded rejection condition holds (name absent, name
denylisted, attribute map empty, or no allow-listed key).  On the empty
name with a well-formed infobox the classifier returns false while the
spec-worded condition does not hold, because the Python test `if not name`
also rejects the empty string. -/
theorem c5_counterexample :
    is_character_page (some "") [("Type", "Fox")] = false
      ∧ isEntryRejectSpec (some "") [("Type", "Fox")] = false := by
  exact ⟨by decide, by decide⟩

/-- C5 (amended): is_character_page returns false exactly when the name is
absent or empty, or the name matches the denylist of non-entry titles, or
the attribute map is empty, or none of the allow-listed keys is present.
In particular a page with none of the allow-listed keys is rejected
regardless of name, and a page with a denylisted name is rejected even when
allow-listed keys are present. -/
theorem c5_classifier_reject_exactly (name : Option String) (info : List (String × String)) :
    is_character_page name info = !(isEntryRejectAmended name info) := by
  cases name with
  | none => rfl
  | some n =>
    simp only [is_character_page, isEntryRejectAmended]
    cases h1 : (n == "") <;>
      cases h2 : nonCharacterTitleMatch n <;>
        cases h3 : info.isEmpty <;>
          cases h4 : required_keys.any (fun k => hasKey info k) <;>
            simp [h1, h2, h3, h4]

/-! ### C2: cache correctness of fetch -/

/-- C2: starting from a state in which URL U has no cache file, two calls of
fetch U with refresh false perform exactly one network request in total, the
second call being served from the cache file the first one wrote; with
refresh true both calls perform a network request, two in total. -/
theorem c2_fetch_twice_network_counts (net : String → Option String) (url content : String)
    (s : FetchState) (hmiss : List.lookup url s.cache = none) (hnet : net url = some content) :
    (fetch net false url (fetch net false url s).2).2.netCalls = s.netCalls + 1
    ∧ (fetch net false url (fetch net false url s).2).1 = some content
    ∧ (fetch net true url (fetch net true url s).2).2.netCalls = s.netCalls + 2 := by
  refine ⟨?_, ?_, ?_⟩ <;>
    simp [fetch, hmiss, hnet, List.lookup]

/-- C2 (witness): the two-call network count at a concrete URL, network and
empty cache. -/
theorem c2_witness :
    (fetch netPage false fifiUrl (fetch netPage false fifiUrl ⟨[], 0⟩).2).2.netCalls = 0 + 1 :=
  (c2_fetch_twice_network_counts netPage fifiUrl "page" ⟨[], 0⟩ rfl rfl).1

/-! ### C9: the cache write is not atomic -/

/-- C9 (code defect): fetch writes the cache file by opening the final path
and writing in place (lines 769-771), so among the filesystem states an
interruption mid-write can leave there is one in which the cache file for
the URL exists (and hence passes the existence check fetch uses at line
755) while holding only a strict prefix of the content; a subsequent fetch
with refresh false returns that partial file as a hit. -/
theorem c9_partial_write_passes_hit_check :
    ∃ fs ∈ interruptedCacheWrites ⟨[], 0⟩ fifiUrl "ab",
      (List.lookup fifiUrl fs.cache).isSome = true
      ∧ (fetch netPage false fifiUrl fs).1 ≠ some "ab"
      ∧ (fetch netPage false fifiUrl fs).2.netCalls = fs.netCalls := by
  decide

/-! ### C8: the section-text budget -/

theorem sum_map_dropLast_le (l : List String) :
    ((l.dropLast.map String.length)).sum ≤ ((l.map String.length)).sum := by
  induction l with
  | nil => simp
  | cons a l ih =>
    cases l with
    | nil => simp
    | cons b m =>
      simp only [List.dropLast_cons₂, List.map_cons, List.sum_cons]
      exact Nat.add_le_add_left ih a.length

theorem collectParts_dropLast_sum (maxChars : Nat) :
    ∀ (sibs : List Sib) (parts : List String),
      (parts.map String.length).sum ≤ maxChars →
      (((collectParts maxChars parts sibs).dropLast.map String.length)).sum ≤ maxChars := by
  intro sibs
  induction sibs with
  | nil =>
    intro parts h
    exact le_trans (sum_map_dropLast_le parts) h
  | cons sib rest ih =>
    intro parts h
    cases sib with
    | heading => exact le_trans (sum_map_dropLast_le parts) h
    | block txt =>
      show (((if maxChars < ((if (txt == "") = true then parts else parts ++ [txt]).map String.length).sum
              then (if (txt == "") = true then parts else parts ++ [txt])
              else collectParts maxChars (if (txt == "") = true then parts else parts ++ [txt]) rest
             ).dropLast.map String.length)).sum ≤ maxChars
      by_cases htxt : (txt == "") = true
      · simp only [if_pos htxt]
        by_cases hlt : maxChars < ((parts.map String.length)).sum
        · rw [if_pos hlt]
          exact le_trans (sum_map_dropLast_le parts) h
        · rw [if_neg hlt]
          exact ih parts h
      · simp only [if_neg htxt]
        by_cases hlt : maxChars < (((parts ++ [txt]).map String.length)).sum
        · rw [if_pos hlt, List.dropLast_concat]
          exact h
        · rw [if_neg hlt]
          exact ih (parts ++ [txt]) (Nat.not_lt.mp hlt)
    | other =>
      show (((if maxChars < (parts.map String.length).sum then parts
              else collectParts maxChars parts rest).dropLast.map String.length)).sum ≤ maxChars
      split
      · exact le_trans (sum_map_dropLast_le parts) h
      · exact ih parts h

theorem length_dropWhile_le (p : Char → Bool) (l : List Char) :
    (l.dropWhile p).length ≤ l.length := by
  induction l with
  | nil => simp
  | cons a l ih =>
    rw [List.dropWhile_cons]
    split
    · exact Nat.le_succ_of_le ih
    · exact Nat.le_refl _

theorem stripStr_length_le (s : String) : (stripStr s).length ≤ s.length := by
  show (stripList s.data).length ≤ s.data.length
  unfold stripList
  rw [List.length_reverse]
  refine le_trans (length_dropWhile_le _ _) ?_
  rw [List.length_reverse]
  exact length_dropWhile_le _ _

theorem joinSpace_length_le : ∀ parts : List String,
    (joinSpace parts).length ≤ (parts.map String.length).sum + parts.length := by
  intro parts
  induction parts with
  | nil => simp [joinSpace]
  | cons p rest ih =>
    cases rest with
    | nil => simp [joinSpace]
    | cons q m =>
      show ((p ++ " " ++ joinSpace (q :: m)).length) ≤ _
      rw [String.length_append, String.length_append]
      simp only [List.map_cons, List.sum_cons]
      have h1 : (" " : String).length = 1 := rfl
      rw [h1]
      have := ih
      simp only [List.map_cons, List.sum_cons, List.length_cons] at this ⊢
      omega

theorem dropWhile_replicate_of_neg (p : Char → Bool) (a : Char) (h : p a = false) (n : Nat) :
    List.dropWhile p (List.replicate n a) = List.replicate n a := by
  cases n with
  | zero => rfl
  | succ m => simp [List.replicate_succ, List.dropWhile_cons, h]

theorem stripList_replicate (n : Nat) :
    stripList (List.replicate n 'a') = List.replicate n 'a' := by
  unfold stripList
  rw [dropWhile_replicate_of_neg _ _ rfl, List.reverse_replicate,
    dropWhile_replicate_of_neg _ _ rfl, List.reverse_replicate]

theorem collectParts_single_block (maxChars : Nat) (txt : String) (h : (txt == "") = false)
    (h2 : maxChars < txt.length) :
    collectParts maxChars [] [Sib.block txt] = [txt] := by
  simp only [collectParts, h, Bool.false_eq_true, if_false, List.nil_append,
    List.map_cons, List.map_nil, List.sum_cons, List.sum_nil, Nat.add_zero]
  rw [if_pos h2]

/-- C8 (counterexample): the claim says the returned description never
exceeds the budget.  A single sibling block of 2501 characters under the
default budget of 2500 yields a description of 2501 characters, because
the budget check of line 867 runs only after the block has been appended. -/
theorem c8_counterexample :
    ¬ (((section_text_after_heading [Sib.block bigBlock] 2500).getD "").length ≤ 2500) := by
  have hne : (bigBlock == "") = false := by decide
  have hlen : bigBlock.length = 2501 := by
    have h : bigBlock.length = (List.replicate 2501 'a').length := rfl
    rw [h, List.length_replicate]
  have hcollect : collectParts 2500 [] [Sib.block bigBlock] = [bigBlock] := by
    refine collectParts_single_block 2500 bigBlock hne ?_
    rw [hlen]
    omega
  have hstrip : stripStr bigBlock = bigBlock := by
    show String.mk (stripList (List.replicate 2501 'a')) = bigBlock
    rw [stripList_replicate]
    rfl
  have htext : section_text_after_heading [Sib.block bigBlock] 2500 = some bigBlock := by
    show (if (stripStr (joinSpace (collectParts 2500 [] [Sib.block bigBlock])) == "") = true
          then none
          else some (stripStr (joinSpace (collectParts 2500 [] [Sib.block bigBlock]))))
        = some bigBlock
    rw [hcollect]
    have hj : joinSpace [bigBlock] = bigBlock := rfl
    rw [hj, hstrip, hne, if_neg Bool.false_ne_true]
  rw [htext]
  show ¬ (bigBlock.length ≤ 2500)
  rw [hlen]
  omega

/-- C8 (amended): the concatenation stops with the first block after which
the accumulated text exceeds the budget, so every collected block except
the last fits within the budget in total; the returned description is at
most the total collected text plus one joining space per block.  It can
therefore exceed the budget only by the length of the final appended block
plus the joining spaces, not unboundedly. -/
theorem c8_description_budget (sibs : List Sib) (maxChars : Nat) :
    (((collectParts maxChars [] sibs).dropLast.map String.length)).sum ≤ maxChars
    ∧ ((section_text_after_heading sibs maxChars).getD "").length
        ≤ (((collectParts maxChars [] sibs).map String.length)).sum
          + (collectParts maxChars [] sibs).length := by
  constructor
  · exact collectParts_dropLast_sum maxChars sibs [] (by simp)
  · show ((if (stripStr (joinSpace (collectParts maxChars [] sibs)) == "") = true
           then (none : Option String)
           else some (stripStr (joinSpace (collectParts maxChars [] sibs)))).getD "").length ≤ _
    split
    · simp
    · show (stripStr (joinSpace (collectParts maxChars [] sibs))).length ≤ _
      exact le_trans (stripStr_length_le _) (joinSpace_length_le _)

/-! ### Unfolding equations and step lemmas for the orchestrator loop -/

theorem runLoop_nil (refresh : Bool) (env : String → PageResult) (limit : Option Nat)
    (s : RunState) : runLoop refresh env limit s [] = s := rfl

theorem runLoop_cons (refresh : Bool) (env : String → PageResult) (limit : Option Nat)
    (s : RunState) (u : String) (rest : List String) :
    runLoop refresh env limit s (u :: rest)
      = if u ∈ s.processed ∨ u ∈ s.skipped then runLoop refresh env limit s rest
        else if limitReached limit s.newCatches then s
        else runLoop refresh env limit (stepUrl env s u) rest := rfl

theorem stepUrl_fetched (env : String → PageResult) (s : RunState) (v : String) :
    (stepUrl env s v).fetched = s.fetched ++ [v] := by
  cases henv : env v with
  | err => simp [stepUrl, henv]
  | ok row info =>
    by_cases hc : is_character_page row.name info = true <;> simp [stepUrl, henv, hc]

theorem stepUrl_err (env : String → PageResult) (s : RunState) (u : String)
    (herr : env u = PageResult.err) :
    stepUrl env s u = { s with errors := s.errors + 1, fetched := s.fetched ++ [u] } := by
  simp [stepUrl, herr]

theorem processed_subset_stepUrl (env : String → PageResult) (s : RunState) (v : String) :
    s.processed ⊆ (stepUrl env s v).processed := by
  cases henv : env v with
  | err => simp [stepUrl, henv]
  | ok row info =>
    by_cases hc : is_character_page row.name info = true <;>
      simp [stepUrl, henv, hc, Finset.subset_insert]

theorem skipped_subset_stepUrl (env : String → PageResult) (s : RunState) (v : String) :
    s.skipped ⊆ (stepUrl env s v).skipped := by
  cases henv : env v with
  | err => simp [stepUrl, henv]
  | ok row info =>
    by_cases hc : is_character_page row.name info = true <;>
      simp [stepUrl, henv, hc, Finset.subset_insert]

theorem stepUrl_not_mem (env : String → PageResult) (s : RunState) (v u : String)
    (hne : u ≠ v) (hp : u ∉ s.processed) (hs : u ∉ s.skipped)
    (hpl : u ∉ s.procLines) (hsl : u ∉ s.skipLines) :
    u ∉ (stepUrl env s v).processed ∧ u ∉ (stepUrl env s v).skipped
    ∧ u ∉ (stepUrl env s v).procLines ∧ u ∉ (stepUrl env s v).skipLines := by
  cases henv : env v with
  | err => simp [stepUrl, henv, hp, hs, hpl, hsl]
  | ok row info =>
    by_cases hc : is_character_page row.name info = true <;>
      simp [stepUrl, henv, hc, append_progress, hp, hs, hpl, hsl, hne,
        Finset.mem_insert]

theorem stepUrl_newCatches_le (env : String → PageResult) (s : RunState) (v : String) :
    (stepUrl env s v).newCatches ≤ s.newCatches + 1 := by
  cases henv : env v with
  | err => simp [stepUrl, henv]
  | ok row info =>
    by_cases hc : is_character_page row.name info = true <;> simp [stepUrl, henv, hc]

theorem mem_fetched_runLoop (refresh : Bool) (env : String → PageResult) (limit : Option Nat)
    (u : String) : ∀ (urls : List String) (s : RunState),
    u ∈ s.fetched → u ∈ (runLoop refresh env limit s urls).fetched := by
  intro urls
  induction urls with
  | nil =>
    intro s h
    rw [runLoop_nil]
    exact h
  | cons v rest ih =>
    intro s h
    rw [runLoop_cons]
    split
    · exact ih s h
    · split
      · exact h
      · refine ih (stepUrl env s v) ?_
        rw [stepUrl_fetched]
        exact List.mem_append_left _ h

/-! ### C3: ledgered URLs are never fetched again, refresh or not -/

theorem ledger_not_fetched (refresh : Bool) (env : String → PageResult) (limit : Option Nat)
    (u : String) : ∀ (urls : List String) (s : RunState),
    (u ∈ s.processed ∨ u ∈ s.skipped) → u ∉ s.fetched →
    u ∉ (runLoop refresh env limit s urls).fetched := by
  intro urls
  induction urls with
  | nil =>
    intro s _ hf
    rw [runLoop_nil]
    exact hf
  | cons v rest ih =>
    intro s hmem hf
    rw [runLoop_cons]
    split
    · exact ih s hmem hf
    · rename_i hv
      split
      · exact hf
      · have hne : v ≠ u := by
          rintro rfl
          exact hv hmem
        refine ih (stepUrl env s v) ?_ ?_
        · cases hmem with
          | inl h => exact Or.inl (processed_subset_stepUrl env s v h)
          | inr h => exact Or.inr (skipped_subset_stepUrl env s v h)
        · rw [stepUrl_fetched]
          intro hmem2
          rcases List.mem_append.mp hmem2 with h | h
          · exact hf h
          · exact hne (List.mem_singleton.mp h).symm

/-- C3 (counterexample): the claim says that under the refresh override a
URL already in a ledger set is fetched again.  In a run with refresh true
whose ledger already holds the Fifi URL, the loop fetches nothing: the skip
of line 2159 consults only the ledger sets and is unconditional, so refresh
never reaches it. -/
theorem c3_counterexample :
    (runLoop true envAllErr none
        { emptyRun with processed := {fifiUrl} } [fifiUrl]).fetched = [] := by
  decide

/-- C3 (amended): a URL already in either ledger set is never fetched during
a subsequent run, regardless of the refresh flag: refresh bypasses only the
cache's read semantics inside fetch, without mutating cache or ledger, while
the ledger skip of the loop is unconditional (clearing the ledger is the
separate rebuild flag). -/
theorem c3_ledgered_never_fetched (refresh : Bool) (env : String → PageResult)
    (limit : Option Nat) (s : RunState) (urls : List String) (u : String)
    (hmem : u ∈ s.processed ∨ u ∈ s.skipped) (hf : u ∉ s.fetched) :
    u ∉ (runLoop refresh env limit s urls).fetched :=
  ledger_not_fetched refresh env limit u urls s hmem hf

/-- C3 (witness): the Fifi URL, ledgered as processed, is not fetched by a
refresh run over an index listing it. -/
theorem c3_witness :
    fifiUrl ∉ (runLoop true envAllErr none
        { emptyRun with processed := {fifiUrl} } [fifiUrl, "B"]).fetched :=
  c3_ledgered_never_fetched true envAllErr none
    { emptyRun with processed := {fifiUrl} } [fifiUrl, "B"] fifiUrl
    (by decide) (by decide)

/-! ### C4: a failing page is recorded and the loop continues -/

theorem err_unmarked (refresh : Bool) (env : String → PageResult) (limit : Option Nat)
    (u : String) (herr : env u = PageResult.err) :
    ∀ (urls : List String) (s : RunState),
    u ∉ s.processed → u ∉ s.skipped → u ∉ s.procLines → u ∉ s.skipLines →
    u ∉ (runLoop refresh env limit s urls).processed
    ∧ u ∉ (runLoop refresh env limit s urls).skipped
    ∧ u ∉ (runLoop refresh env limit s urls).procLines
    ∧ u ∉ (runLoop refresh env limit s urls).skipLines := by
  intro urls
  induction urls with
  | nil =>
    intro s hp hs hpl hsl
    rw [runLoop_nil]
    exact ⟨hp, hs, hpl, hsl⟩
  | cons v rest ih =>
    intro s hp hs hpl hsl
    rw [runLoop_cons]
    split
    · exact ih s hp hs hpl hsl
    · split
      · exact ⟨hp, hs, hpl, hsl⟩
      · by_cases hvu : v = u
        · subst hvu
          rw [stepUrl_err env s v herr]
          exact ih _ hp hs hpl hsl
        · obtain ⟨h1, h2, h3, h4⟩ :=
            stepUrl_not_mem env s v u (fun h => hvu h.symm) hp hs hpl hsl
          exact ih _ h1 h2 h3 h4

/-- C4: when the per-URL work for a URL raises (any exception: transport,
timeout, parse), the loop records the error in the errors counter, changes
nothing else — in particular the URL enters neither the in-memory ledger
sets nor the on-disk ledger files — and continues with the remaining URLs;
it also stays out of both ledgers for the rest of the run, so a single
failing page never terminates the batch loop. -/
theorem c4_error_recorded_loop_continues (refresh : Bool) (env : String → PageResult)
    (limit : Option Nat) (s : RunState) (u : String) (rest : List String)
    (herr : env u = PageResult.err)
    (hp : u ∉ s.processed) (hs : u ∉ s.skipped)
    (hpl : u ∉ s.procLines) (hsl : u ∉ s.skipLines)
    (hl : limitReached limit s.newCatches = false) :
    runLoop refresh env limit s (u :: rest)
      = runLoop refresh env limit
          { s with errors := s.errors + 1, fetched := s.fetched ++ [u] } rest
    ∧ u ∉ (runLoop refresh env limit s (u :: rest)).processed
    ∧ u ∉ (runLoop refresh env limit s (u :: rest)).skipped
    ∧ u ∉ (runLoop refresh env limit s (u :: rest)).procLines
    ∧ u ∉ (runLoop refresh env limit s (u :: rest)).skipLines := by
  have hnotmem : ¬ (u ∈ s.processed ∨ u ∈ s.skipped) := by
    rintro (h | h)
    · exact hp h
    · exact hs h
  constructor
  · rw [runLoop_cons, if_neg hnotmem, hl]
    rw [stepUrl_err env s u herr]
    simp
  · exact err_unmarked refresh env limit u herr (u :: rest) s hp hs hpl hsl

/-- C4 (witness): a concrete two-URL run in which the first URL errors: the
loop goes on to the second URL and the first stays out of both ledgers. -/
theorem c4_witness :
    runLoop false envAllErr none emptyRun ["A", "B"]
      = runLoop false envAllErr none
          { emptyRun with errors := emptyRun.errors + 1,
                          fetched := emptyRun.fetched ++ ["A"] } ["B"] :=
  (c4_error_recorded_loop_continues false envAllErr none emptyRun "A" ["B"]
    rfl (by decide) (by decide) (by decide) (by decide) rfl).1

/-! ### C6: no null-named rows, checkpoints hold exactly the accepted rows -/

theorem is_character_page_name_not_none (name : Option String) (info : List (String × String))
    (h : is_character_page name info = true) : name ≠ none := by
  cases name with
  | none => exact absurd h (by simp [is_character_page])
  | some n => exact fun hc => Option.noConfusion hc

theorem rows_named_and_counted (refresh : Bool) (env : String → PageResult)
    (limit : Option Nat) : ∀ (urls : List String) (s : RunState),
    (∀ r ∈ s.rows, r.name ≠ none) →
    (∀ r ∈ (runLoop refresh env limit s urls).rows, r.name ≠ none)
    ∧ (runLoop refresh env limit s urls).rows.length + s.newCatches
        = s.rows.length + (runLoop refresh env limit s urls).newCatches := by
  intro urls
  induction urls with
  | nil =>
    intro s h
    rw [runLoop_nil]
    exact ⟨h, rfl⟩
  | cons v rest ih =>
    intro s h
    rw [runLoop_cons]
    split
    · exact ih s h
    · split
      · exact ⟨h, rfl⟩
      · cases henv : env v with
        | err =>
          have hrows : (stepUrl env s v).rows = s.rows := by
            simp [stepUrl, henv]
          have hcat : (stepUrl env s v).newCatches = s.newCatches := by
            simp [stepUrl, henv]
          have h2 : ∀ r ∈ (stepUrl env s v).rows, r.name ≠ none := by
            rw [hrows]
            exact h
          obtain ⟨ha, hb⟩ := ih (stepUrl env s v) h2
          rw [hrows, hcat] at hb
          exact ⟨ha, hb⟩
        | ok row info =>
          by_cases hc : is_character_page row.name info = true
          · have hrows : (stepUrl env s v).rows = s.rows ++ [row] := by
              simp [stepUrl, henv, hc]
            have hcat : (stepUrl env s v).newCatches = s.newCatches + 1 := by
              simp [stepUrl, henv, hc]
            have h2 : ∀ r ∈ (stepUrl env s v).rows, r.name ≠ none := by
              rw [hrows]
              intro r hr
              rcases List.mem_append.mp hr with hr | hr
              · exact h r hr
              · rw [List.mem_singleton.mp hr]
                exact is_character_page_name_not_none row.name info hc
            obtain ⟨ha, hb⟩ := ih (stepUrl env s v) h2
            refine ⟨ha, ?_⟩
            rw [hrows, hcat] at hb
            simp only [List.length_append, List.length_cons, List.length_nil] at hb
            omega
          · have hrows : (stepUrl env s v).rows = s.rows := by
              simp [stepUrl, henv, hc]
            have hcat : (stepUrl env s v).newCatches = s.newCatches := by
              simp [stepUrl, henv, hc]
            have h2 : ∀ r ∈ (stepUrl env s v).rows, r.name ≠ none := by
              rw [hrows]
              exact h
            obtain ⟨ha, hb⟩ := ih (stepUrl env s v) h2
            rw [hrows, hcat] at hb
            exact ⟨ha, hb⟩

/-- C6: starting from a state whose catalog rows all carry a name, every row
of the final state carries a name (rows are appended only after the
classifier accepted the page, and the classifier rejects an absent name),
and the number of rows grows by exactly the number of accepted entries (the
new_catches counter), so at every stop — including an interruption — the
export holds exactly the prior rows plus the accepted entries, with zero
null-named rows.  The loop being defined over an arbitrary URL list, the
statement covers every prefix at which the run may be interrupted. -/
theorem c6_no_null_named_rows (refresh : Bool) (env : String → PageResult)
    (limit : Option Nat) (s : RunState) (urls : List String)
    (h0 : ∀ r ∈ s.rows, r.name ≠ none) :
    (∀ r ∈ (runLoop refresh env limit s urls).rows, r.name ≠ none)
    ∧ (runLoop refresh env limit s urls).rows.length + s.newCatches
        = s.rows.length + (runLoop refresh env limit s urls).newCatches :=
  rows_named_and_counted refresh env limit urls s h0

/-- C6 (witness): the row count of a concrete run from the empty state
equals its accepted count. -/
theorem c6_witness :
    (runLoop false envListThenChar none emptyRun ["A", "B"]).rows.length + emptyRun.newCatches
      = emptyRun.rows.length + (runLoop false envListThenChar none emptyRun ["A", "B"]).newCatches :=
  (c6_no_null_named_rows false envListThenChar none emptyRun ["A", "B"] (by simp [emptyRun])).2

/-! ### C7: the limit bounds accepted catches, not fetches -/

/-- C7 (counterexample): the claim says a run with limit N performs at most
N fetches of new URLs.  With limit 1 over two candidate URLs of which the
first is rejected by the classifier, the loop fetches both URLs: the break
of line 2161 compares the limit against log.new_catches, which counts only
accepted entries, so rejected pages do not consume the budget. -/
theorem c7_counterexample :
    (runLoop false envListThenChar (some 1) emptyRun ["A", "B"]).fetched = ["A", "B"]
    ∧ ¬ ((runLoop false envListThenChar (some 1) emptyRun ["A", "B"]).fetched.length ≤ 1) := by
  exact ⟨by decide, by decide⟩

theorem newCatches_le_runLoop (refresh : Bool) (env : String → PageResult) (n : Nat) :
    ∀ (urls : List String) (s : RunState), s.newCatches ≤ n →
    (runLoop refresh env (some n) s urls).newCatches ≤ n := by
  intro urls
  induction urls with
  | nil =>
    intro s h
    rw [runLoop_nil]
    exact h
  | cons v rest ih =>
    intro s h
    rw [runLoop_cons]
    split
    · exact ih s h
    · by_cases hl : limitReached (some n) s.newCatches = true
      · rw [hl]
        simp only [if_true]
        exact h
      · rw [Bool.not_eq_true] at hl
        rw [hl]
        simp only [Bool.false_eq_true, if_false]
        refine ih (stepUrl env s v) ?_
        have hlt : s.newCatches < n := by
          by_contra hge
          have : limitReached (some n) s.newCatches = true := by
            simp only [limitReached, decide_eq_true_eq]
            omega
          rw [this] at hl
          exact Bool.noConfusion hl
        exact le_trans (stepUrl_newCatches_le env s v) (by omega)

theorem unlimited_fetches_all (refresh : Bool) (env : String → PageResult) (u : String) :
    ∀ (urls : List String) (s : RunState), u ∈ urls →
    ((u ∈ s.processed ∨ u ∈ s.skipped) → u ∈ s.fetched) →
    u ∈ (runLoop refresh env none s urls).fetched := by
  intro urls
  induction urls with
  | nil =>
    intro s h
    exact absurd h (List.not_mem_nil u)
  | cons v rest ih =>
    intro s hu hcond
    rw [runLoop_cons]
    split
    · rename_i hv
      by_cases hvu : u = v
      · subst hvu
        exact mem_fetched_runLoop refresh env none u rest s (hcond hv)
      · exact ih s (by
          rcases List.mem_cons.mp hu with h | h
          · exact absurd h.symm (fun hh => hvu hh.symm)
          · exact h) hcond
    · rename_i hv
      split
      · rename_i hlim
        exact absurd hlim (by simp [limitReached])
      · by_cases hvu : u = v
        · subst hvu
          refine mem_fetched_runLoop refresh env none u rest (stepUrl env s u) ?_
          rw [stepUrl_fetched]
          exact List.mem_append_right _ (List.mem_singleton.mpr rfl)
        · have hrest : u ∈ rest := by
            rcases List.mem_cons.mp hu with h | h
            · exact absurd h hvu
            · exact h
          refine ih (stepUrl env s v) hrest ?_
          intro hmem2
          have hmem : u ∈ s.processed ∨ u ∈ s.skipped := by
            cases henv : env v with
            | err =>
              rw [stepUrl_err env s v henv] at hmem2
              exact hmem2
            | ok row info =>
              by_cases hc : is_character_page row.name info = true
              · have hstep : (stepUrl env s v).processed = insert v s.processed
                    ∧ (stepUrl env s v).skipped = s.skipped := by
                  constructor <;> simp [stepUrl, henv, hc]
                rcases hmem2 with h2 | h2
                · rw [hstep.1] at h2
                  rcases Finset.mem_insert.mp h2 with h3 | h3
                  · exact absurd h3 hvu
                  · exact Or.inl h3
                · rw [hstep.2] at h2
                  exact Or.inr h2
              · have hstep : (stepUrl env s v).processed = s.processed
                    ∧ (stepUrl env s v).skipped = insert v s.skipped := by
                  constructor <;> simp [stepUrl, henv, hc]
                rcases hmem2 with h2 | h2
                · rw [hstep.1] at h2
                  exact Or.inl h2
                · rw [hstep.2] at h2
                  rcases Finset.mem_insert.mp h2 with h3 | h3
                  · exact absurd h3 hvu
                  · exact Or.inr h3
          have hf := hcond hmem
          rw [stepUrl_fetched]
          exact List.mem_append_left _ hf

/-- C7 (amended): the limit is a budget on accepted entries, not on fetches:
in a run with limit N, starting below the budget, at most N entries are ever
accepted (the new_catches counter never exceeds N, the loop breaking once it
reaches the limit), while rejected or failing pages may push the number of
fetches beyond N; with limit 0 (modelled by limit none, since main maps 0 to
None) the budget is unbounded and every candidate URL not already in either
ledger set is fetched and processed. -/
theorem c7_limit_bounds_catches (refresh : Bool) (env : String → PageResult) (n : Nat)
    (s : RunState) (urls : List String) (h : s.newCatches ≤ n) :
    (runLoop refresh env (some n) s urls).newCatches ≤ n
    ∧ (∀ u ∈ urls, u ∉ s.processed → u ∉ s.skipped →
        u ∈ (runLoop refresh env none s urls).fetched) := by
  refine ⟨newCatches_le_runLoop refresh env n urls s h, ?_⟩
  intro u hu hp hs
  refine unlimited_fetches_all refresh env u urls s hu ?_
  rintro (hmem | hmem)
  · exact absurd hmem hp
  · exact absurd hmem hs

/-- C7 (witness): a concrete unlimited run from the empty state fetches a
listed URL, and a concrete limited run stays within its accepted budget. -/
theorem c7_witness :
    "A" ∈ (runLoop false envListThenChar none emptyRun ["A", "B"]).fetched :=
  (c7_limit_bounds_catches false envListThenChar 1 emptyRun ["A", "B"] (by decide)).2
    "A" (by decide) (by decide) (by decide)

/-! ### C1: ledger disjointness and idempotence of marking -/

theorem markProcessed_disjoint (s : RunState) (u : String)
    (h : Disjoint s.processed s.skipped) :
    Disjoint (markProcessed s u).processed (markProcessed s u).skipped := by
  unfold markProcessed
  split
  · exact h
  · rename_i hmem
    push_neg at hmem
    exact Finset.disjoint_insert_left.mpr ⟨hmem.2, h⟩

theorem markRejected_disjoint (s : RunState) (u : String)
    (h : Disjoint s.processed s.skipped) :
    Disjoint (markRejected s u).processed (markRejected s u).skipped := by
  unfold markRejected
  split
  · exact h
  · rename_i hmem
    push_neg at hmem
    exact Finset.disjoint_insert_right.mpr ⟨hmem.1, h⟩

theorem applyMarkOps_disjoint (ops : List MarkOp) : ∀ s : RunState,
    Disjoint s.processed s.skipped →
    Disjoint (applyMarkOps s ops).processed (applyMarkOps s ops).skipped := by
  induction ops with
  | nil => intro s h; exact h
  | cons op rest ih =>
    intro s h
    show Disjoint (applyMarkOps (applyMarkOp s op) rest).processed
      (applyMarkOps (applyMarkOp s op) rest).skipped
    refine ih (applyMarkOp s op) ?_
    cases op with
    | processed u => exact markProcessed_disjoint s u h
    | rejected u => exact markRejected_disjoint s u h

theorem read_progress_append_of_mem (lines : List String) (u : String)
    (hclean : stripStr u = u) (hu : u ∈ read_progress lines) :
    read_progress (append_progress lines u) = read_progress lines := by
  have hq : (u != "") = true :=
    (List.mem_filter.mp (List.mem_toFinset.mp hu)).2
  show (((lines ++ [u]).map stripStr).filter (fun l => l != "")).toFinset
      = ((lines.map stripStr).filter (fun l => l != "")).toFinset
  rw [List.map_append, List.map_singleton, hclean, List.filter_append, List.toFinset_append]
  have hfil : [u].filter (fun l => l != "") = [u] := by
    simp [List.filter, hq]
  rw [hfil]
  refine Finset.union_eq_left.mpr ?_
  intro x hx
  rw [List.mem_toFinset, List.mem_singleton] at hx
  subst hx
  exact hu

/-- C1: after any sequence of the mark operations as the orchestrator loop
performs them (append the URL to the corresponding ledger file and add it
to the corresponding in-memory set, skipping URLs already known), the
Processed and Rejected sets stay disjoint; re-marking a URL already in a
set leaves the state unchanged, so in particular nothing is re-appended to
either file; and at the durable level, appending a URL already recovered by
read_progress to its ledger file changes neither the membership nor the
cardinality of the recovered set. -/
theorem c1_ledger_disjoint_idempotent (s : RunState) (ops : List MarkOp)
    (hdis : Disjoint s.processed s.skipped) :
    Disjoint (applyMarkOps s ops).processed (applyMarkOps s ops).skipped
    ∧ (∀ u, u ∈ (applyMarkOps s ops).processed ∨ u ∈ (applyMarkOps s ops).skipped →
        markProcessed (applyMarkOps s ops) u = applyMarkOps s ops
        ∧ markRejected (applyMarkOps s ops) u = applyMarkOps s ops)
    ∧ (∀ (lines : List String) (u : String), stripStr u = u → u ∈ read_progress lines →
        read_progress (append_progress lines u) = read_progress lines
        ∧ (read_progress (append_progress lines u)).card = (read_progress lines).card) := by
  refine ⟨applyMarkOps_disjoint ops s hdis, ?_, ?_⟩
  · intro u hu
    constructor
    · unfold markProcessed
      rw [if_pos hu]
    · unfold markRejected
      rw [if_pos hu]
  · intro lines u hclean hu
    have heq := read_progress_append_of_mem lines u hclean hu
    exact ⟨heq, by rw [heq]⟩

/-- C1 (witness): a concrete op sequence that re-marks a known URL and marks
a fresh one keeps the two recovered sets disjoint. -/
theorem c1_witness :
    Disjoint
      (applyMarkOps { emptyRun with processed := {"a"}, skipped := {"b"} }
        [MarkOp.processed "a", MarkOp.rejected "c"]).processed
      (applyMarkOps { emptyRun with processed := {"a"}, skipped := {"b"} }
        [MarkOp.processed "a", MarkOp.rejected "c"]).skipped :=
  (c1_ledger_disjoint_idempotent { emptyRun with processed := {"a"}, skipped := {"b"} }
    [MarkOp.processed "a", MarkOp.rejected "c"] (by decide)).1

/-! ### C10: the extracted master-list URLs -/

theorem dedupFirstAux_sublist : ∀ (l seen : List String), List.Sublist (dedupFirstAux seen l) l := by
  intro l
  induction l with
  | nil =>
    intro seen
    exact List.Sublist.refl _
  | cons b t ih =>
    intro seen
    show List.Sublist (if b ∈ seen then dedupFirstAux seen t else b :: dedupFirstAux (b :: seen) t) (b :: t)
    split
    · exact List.Sublist.cons b (ih seen)
    · exact List.Sublist.cons₂ b (ih (b :: seen))

theorem mem_dedupFirstAux : ∀ (l seen : List String) (a : String),
    a ∈ dedupFirstAux seen l ↔ a ∈ l ∧ a ∉ seen := by
  intro l
  induction l with
  | nil =>
    intro seen a
    simp [dedupFirstAux]
  | cons b t ih =>
    intro seen a
    show a ∈ (if b ∈ seen then dedupFirstAux seen t else b :: dedupFirstAux (b :: seen) t)
      ↔ a ∈ b :: t ∧ a ∉ seen
    split
    · rename_i hb
      rw [ih seen a]
      simp only [List.mem_cons]
      constructor
      · rintro ⟨h1, h2⟩
        exact ⟨Or.inr h1, h2⟩
      · rintro ⟨h1 | h1, h2⟩
        · subst h1
          exact absurd hb h2
        · exact ⟨h1, h2⟩
    · rename_i hb
      simp only [List.mem_cons, ih (b :: seen) a, List.mem_cons]
      constructor
      · rintro (h | ⟨h1, h2⟩)
        · subst h
          exact ⟨Or.inl rfl, hb⟩
        · exact ⟨Or.inr h1, fun hc => h2 (Or.inr hc)⟩
      · rintro ⟨h1 | h1, h2⟩
        · exact Or.inl h1
        · by_cases hab : a = b
          · exact Or.inl hab
          · refine Or.inr ⟨h1, ?_⟩
            rintro (hc | hc)
            · exact hab hc
            · exact h2 hc

theorem dedupFirstAux_nodup : ∀ (l seen : List String), (dedupFirstAux seen l).Nodup := by
  intro l
  induction l with
  | nil =>
    intro seen
    exact List.nodup_nil
  | cons b t ih =>
    intro seen
    show (if b ∈ seen then dedupFirstAux seen t else b :: dedupFirstAux (b :: seen) t).Nodup
    split
    · exact ih seen
    · refine List.nodup_cons.mpr ⟨?_, ih (b :: seen)⟩
      intro hmem
      exact ((mem_dedupFirstAux t (b :: seen) b).mp hmem).2 (List.mem_cons_self b seen)

theorem candidateOf_spec (href0 u : String) (h : candidateOf href0 = some u) :
    strStartsWith (splitHash href0) "/wiki/" = true
    ∧ (SKIP_NAMESPACES.any (fun ns => strStartsWith (strDrop (splitHash href0) 6) ns)) = false
    ∧ u = BASE ++ splitHash href0 := by
  simp only [candidateOf] at h
  split at h
  · split at h
    · rename_i h2
      split at h
      · exact absurd h (by simp)
      · rename_i h3
        rw [Bool.not_eq_true] at h3
        exact ⟨h2, h3, (Option.some.inj h).symm⟩
    · exact absurd h (by simp)
  · exact absurd h (by simp)

/-- C10: for every anchor list, the extracted URL list has no duplicates and
is a sublist of the candidate URLs in document order (first occurrences
kept); a URL is extracted exactly when it is a candidate and does not match
the noisy list-page pattern; and every extracted URL comes from an anchor
whose fragmentless href starts with /wiki/, whose title part starts with no
skipped namespace prefix, joined onto the base origin. -/
theorem c10_extract_urls (hrefs : List String) :
    (extract_master_list_urls hrefs).Nodup
    ∧ List.Sublist (extract_master_list_urls hrefs) (dedupFirstAux [] (candidateUrls hrefs))
    ∧ (∀ u, u ∈ extract_master_list_urls hrefs
        ↔ u ∈ candidateUrls hrefs ∧ noisyPages u = false)
    ∧ (∀ u ∈ extract_master_list_urls hrefs,
        ∃ href0 ∈ hrefs,
          strStartsWith (splitHash href0) "/wiki/" = true
          ∧ (SKIP_NAMESPACES.any (fun ns => strStartsWith (strDrop (splitHash href0) 6) ns)) = false
          ∧ u = BASE ++ splitHash href0) := by
  refine ⟨?_, ?_, ?_, ?_⟩
  · exact List.Nodup.filter _ (dedupFirstAux_nodup (candidateUrls hrefs) [])
  · exact List.filter_sublist _
  · intro u
    unfold extract_master_list_urls
    rw [List.mem_filter, mem_dedupFirstAux]
    simp [Bool.not_eq_true']
  · intro u hu
    have hcand : u ∈ candidateUrls hrefs := by
      unfold extract_master_list_urls at hu
      have := List.mem_filter.mp hu
      exact ((mem_dedupFirstAux (candidateUrls hrefs) [] u).mp this.1).1
    obtain ⟨href0, hh, hsome⟩ := List.mem_filterMap.mp hcand
    exact ⟨href0, hh, candidateOf_spec href0 u hsome⟩

/-- C10 (witness): the Fifi URL extracted from a one-anchor document comes
from its anchor joined onto the base origin. -/
theorem c10_witness :
    ∃ href0 ∈ ["/wiki/Fifi"],
      strStartsWith (splitHash href0) "/wiki/" = true
      ∧ (SKIP_NAMESPACES.any (fun ns => strStartsWith (strDrop (splitHash href0) 6) ns)) = false
      ∧ fifiUrl = BASE ++ splitHash href0 :=
  (c10_extract_urls ["/wiki/Fifi"]).2.2.2 fifiUrl (by decide)

end Squishmallowdex
